import Mathlib

/-!
Verification of the `pycdp` protocol-compiler core (`src/pycdp/gen/generate.py`).

The development shallowly embeds the semantic content of the generator:
the protocol data model (`CdpItems`, `CdpProperty`, `CdpType`, `CdpCommand`,
`CdpEvent`, `CdpDomain`), the name conversion (`snake_case`, mirroring
`inflection.underscore` plus the builtin-shadowing check), the reference
resolver (`ref_to_python`, `ref_to_python_domain`), the semantics of the
encode/decode code emitted for properties, records, commands and events,
the import computation (`generate_imports`) and the schema patcher
(`fix_protocol_spec`).

Python runtime values that can appear in the generated dataclasses and in
the JSON wire mappings are modelled by `Val`; Python exceptions raised by
the generated code are modelled by `PyErr` via `Except`.
-/

/-- A Python runtime value as used by the generated modules: `None`, a bool,
an int, a float (modelled as a rational), a string, a list, or a dict with
string keys.  JSON wire values are the same data (JSON null is `none`). -/
inductive Val where
  | none
  | bool (b : Bool)
  | int (n : Int)
  | num (q : Rat)
  | str (s : String)
  | list (xs : List Val)
  | dict (kvs : List (String × Val))

/-- A Python exception raised by the generated code or by the generator.
`keyError k` is the `KeyError` raised by `dict_[k]` on a missing key: this is
precisely the spec's `MissingField` decode failure for key `k`. -/
inductive PyErr where
  | keyError (key : String)
  | typeError
  | valueError
  | indexError
  | attributeError
deriving DecidableEq, Repr

/-- Lookup in a Python dict modelled as an association list (first match). -/
def findKey (k : String) : List (String × Val) → Option Val
  | [] => Option.none
  | (k', v) :: rest => if k' = k then some v else findKey k rest

/-- `v is None` in Python. -/
def Val.isNone : Val → Bool
  | .none => true
  | _ => false

/-- Python truthiness of a value (used by `bool(...)`). -/
def pyTruthy : Val → Bool
  | .none => false
  | .bool b => b
  | .int n => n != 0
  | .num q => q != 0
  | .str s => s != ""
  | .list xs => !xs.isEmpty
  | .dict kvs => !kvs.isEmpty

/-! ## Python string operations

The generator manipulates names with `str.split('.')`, `str.startswith`,
slicing, `-`→`_` replacement and lowercasing, and `inflection.underscore`'s
two regular-expression substitutions.  These are modelled on `List Char`. -/

def isAsciiUpper (c : Char) : Bool := 'A' ≤ c && c ≤ 'Z'

def isAsciiLower (c : Char) : Bool := 'a' ≤ c && c ≤ 'z'

def isAsciiDigit (c : Char) : Bool := '0' ≤ c && c ≤ '9'

/-- `re.sub(r"([A-Z]+)([A-Z][a-z])", r"\1_\2", w)`: insert an underscore
before an uppercase letter that is preceded by an uppercase letter and
followed by a lowercase letter.  `prev` is the preceding original character
(if any). -/
def underscoreSub1 (prev : Option Char) : List Char → List Char
  | [] => []
  | c :: rest =>
    let hit := (match prev with
      | some p => isAsciiUpper p
      | Option.none => false)
      && isAsciiUpper c
      && (match rest with
      | d :: _ => isAsciiLower d
      | [] => false)
    if hit then '_' :: c :: underscoreSub1 (some c) rest
    else c :: underscoreSub1 (some c) rest

/-- `re.sub(r"([a-z\d])([A-Z])", r"\1_\2", w)`: insert an underscore before
an uppercase letter that is preceded by a lowercase letter or a digit. -/
def underscoreSub2 (prev : Option Char) : List Char → List Char
  | [] => []
  | c :: rest =>
    let hit := (match prev with
      | some p => isAsciiLower p || isAsciiDigit p
      | Option.none => false)
      && isAsciiUpper c
    if hit then '_' :: c :: underscoreSub2 (some c) rest
    else c :: underscoreSub2 (some c) rest

/-- `inflection.underscore`: the two substitutions above, then `-` → `_`,
then lowercase. -/
def pyUnderscore (s : String) : String :=
  String.mk (((underscoreSub2 Option.none (underscoreSub1 Option.none s.data)).map
    (fun c => if c = '-' then '_' else c)).map Char.toLower)

/-- The names bound in Python's `builtins` module that are all-lowercase
(names with uppercase letters can never equal the lowercased output of
`inflection.underscore`, so they are omitted); `is_builtin` tests membership
via `getattr(builtins, name)`. -/
def pyBuiltins : List String :=
  ["abs", "aiter", "all", "anext", "any", "ascii", "bin", "bool",
   "breakpoint", "bytearray", "bytes", "callable", "chr", "classmethod",
   "compile", "complex", "copyright", "credits", "delattr", "dict", "dir",
   "divmod", "enumerate", "eval", "exec", "exit", "filter", "float",
   "format", "frozenset", "getattr", "globals", "hasattr", "hash", "help",
   "hex", "id", "input", "int", "isinstance", "issubclass", "iter", "len",
   "license", "list", "locals", "map", "max", "memoryview", "min", "next",
   "object", "oct", "open", "ord", "pow", "print", "property", "quit",
   "range", "repr", "reversed", "round", "set", "setattr", "slice",
   "sorted", "staticmethod", "str", "sum", "super", "tuple", "type",
   "vars", "zip"]

/-- `is_builtin`: would `name` shadow a Python builtin? -/
def is_builtin (name : String) : Bool := pyBuiltins.contains name

/-- `snake_case`: underscore the name; append `_` if it would shadow a
builtin. -/
def snake_case (name : String) : String :=
  let u := pyUnderscore name
  if is_builtin u then u ++ "_" else u

/-- `s.split('.')` on the character level (separator is a single char). -/
def splitDotCh : List Char → List (List Char)
  | [] => [[]]
  | c :: cs =>
    if c = '.' then [] :: splitDotCh cs
    else
      match splitDotCh cs with
      | h :: t => (c :: h) :: t
      | [] => [[c]]

/-- `ref.split('.')` as a list of strings. -/
def splitDotS (s : String) : List String :=
  (splitDotCh s.data).map String.mk

/-- Character-level startswith test. -/
def startsWithCh : List Char → List Char → Bool
  | [], _ => true
  | _ :: _, [] => false
  | p :: ps, c :: cs => p = c && startsWithCh ps cs

/-- `s.startswith(pre)`. -/
def pyStartsWith (s pre : String) : Bool := startsWithCh pre.data s.data

/-- `s[n:]` (drop the first `n` characters). -/
def pyDropChars (s : String) (n : Nat) : String := String.mk (s.data.drop n)

/-- `'.' in s`. -/
def containsDot (s : String) : Bool := s.data.contains '.'

/-! ## The reference resolver -/

/-- `ref_to_python`: for a dotted ref the part before the dot is snake
cased.  Python's `domain, subtype = ref.split('.')` raises `ValueError`
when the split does not yield exactly two parts; this is modelled by
`Option.none`. -/
def ref_to_python (ref : String) : Option String :=
  if containsDot ref then
    match splitDotS ref with
    | [d, s] => some (snake_case d ++ "." ++ s)
    | _ => Option.none
  else some ref

/-- `ref_to_python_domain`: drop the qualifier when `ref` starts with
`domain + "."`, then apply `ref_to_python`. -/
def ref_to_python_domain (ref domain : String) : Option String :=
  if pyStartsWith ref (domain ++ ".") then
    ref_to_python (pyDropChars ref (domain.data.length + 1))
  else ref_to_python ref

/-! ## The protocol data model -/

/-- `CdpItems`: the element shape of a repeated value (`type` / `$ref`). -/
structure CdpItems where
  type : Option String
  ref : Option String

/-- `CdpProperty`: a named field of a non-primitive CDP type.  `CdpParameter`
and `CdpReturn` share this shape (they differ only in rendering). -/
structure CdpProperty where
  name : String
  description : Option String
  type : Option String
  ref : Option String
  enum : Option (List String)
  items : Option CdpItems
  optional : Bool
  experimental : Bool
  deprecated : Bool
  domain : String

/-- Python truthiness of an optional string attribute (`None` and `""` are
falsy). -/
def truthyS : Option String → Option String
  | some s => if s = "" then Option.none else some s
  | Option.none => Option.none

/-- A property's Python name (`CdpProperty.py_name`). -/
def CdpProperty.pyName (p : CdpProperty) : String := snake_case p.name

/-- `CdpType`: a top-level CDP type declaration. -/
structure CdpType where
  id : String
  description : Option String
  type : String
  items : Option CdpItems
  enum : Option (List String)
  properties : List CdpProperty

/-- `CdpCommand`. -/
structure CdpCommand where
  name : String
  description : Option String
  experimental : Bool
  deprecated : Bool
  parameters : List CdpProperty
  returns : List CdpProperty
  domain : String

/-- `CdpEvent`. -/
structure CdpEvent where
  name : String
  description : Option String
  deprecated : Bool
  experimental : Bool
  parameters : List CdpProperty
  domain : String

/-- `CdpDomain`. -/
structure CdpDomain where
  domain : String
  description : Option String
  experimental : Bool
  dependencies : List String
  types : List CdpType
  commands : List CdpCommand
  events : List CdpEvent

/-! ## Semantics of the generated per-property codec

`CdpProperty.generate_to_json` and `CdpProperty.generate_from_json` emit,
for each property, one encode statement and one decode expression.  Their
runtime semantics are modelled here.  The `to_json`/`from_json` pair of the
generated class for a referenced type is abstracted as a `RefCodec`
supplied by an environment. -/

/-- The `to_json`/`from_json` methods of the generated class behind a
`$ref`, abstracted. -/
structure RefCodec where
  toJson : Val → Val
  fromJson : Val → Except PyErr Val

/-- Maps a `$ref` string to the codec of the generated class it denotes. -/
def Env : Type := String → RefCodec

/-- Semantics of `CdpPrimitiveType.get_constructor`: the Python constructor
for a CDP primitive type applied to a JSON-decoded value.  `bool` is Python
truthiness (total); the numeric constructors coerce between numeric types
and parse integer literals; `any` is the identity.  Coercions that cannot
occur for JSON-decoded wire values are modelled as type errors, and an
unknown type name is the `KeyError` of the enum lookup `cls[cdp_type]`. -/
def getConstructorSem (cdpType : Option String) (j : Val) : Except PyErr Val :=
  match cdpType with
  | some "any" => .ok j
  | some "boolean" => .ok (.bool (pyTruthy j))
  | some "integer" =>
    match j with
    | .int n => .ok (.int n)
    | .bool b => .ok (.int (if b then 1 else 0))
    | .num q => .ok (.int (if 0 ≤ q then q.floor else q.ceil))
    | .str s =>
      match s.toInt? with
      | some n => .ok (.int n)
      | Option.none => .error .valueError
    | _ => .error .typeError
  | some "number" =>
    match j with
    | .num q => .ok (.num q)
    | .int n => .ok (.num n)
    | .bool b => .ok (.num (if b then 1 else 0))
    | _ => .error .typeError
  | some "string" =>
    match j with
    | .str s => .ok (.str s)
    | _ => .error .typeError
  | some "object" =>
    match j with
    | .dict kvs => .ok (.dict kvs)
    | _ => .error .typeError
  | some other => .error (.keyError other)
  | Option.none => .error .typeError

/-- Error-propagating map (the semantics of a Python list comprehension
whose body may raise). -/
def mapExcept (f : α → Except PyErr β) : List α → Except PyErr (List β)
  | [] => .ok []
  | x :: xs =>
    match f x with
    | .error e => .error e
    | .ok y =>
      match mapExcept f xs with
      | .error e => .error e
      | .ok ys => .ok (y :: ys)

/-- Semantics of the right-hand side emitted by
`CdpProperty.generate_to_json` for a stored field value `v`:
`[i.to_json() for i in v]`, `[i for i in v]`, `v.to_json()`, or `v`.
Iterating a non-list raises. -/
def encodeExpr (env : Env) (p : CdpProperty) (v : Val) : Except PyErr Val :=
  match p.items with
  | some it =>
    match v with
    | .list xs =>
      match truthyS it.ref with
      | some r => .ok (.list (xs.map (env r).toJson))
      | Option.none => .ok (.list xs)
    | _ => .error .typeError
  | Option.none =>
    match truthyS p.ref with
    | some r => .ok ((env r).toJson v)
    | Option.none => .ok v

/-- Semantics of the decode expression emitted by
`CdpProperty.generate_from_json` applied to the value found at the
property's key: element-wise `from_json`/constructor for repeated shapes,
`from_json` for a reference, primitive constructor otherwise. -/
def decodeVal (env : Env) (p : CdpProperty) (j : Val) : Except PyErr Val :=
  match p.items with
  | some it =>
    match j with
    | .list xs =>
      match truthyS it.ref with
      | some r =>
        match mapExcept (env r).fromJson xs with
        | .ok ys => .ok (.list ys)
        | .error e => .error e
      | Option.none =>
        match mapExcept (getConstructorSem it.type) xs with
        | .ok ys => .ok (.list ys)
        | .error e => .error e
    | _ => .error .typeError
  | Option.none =>
    match truthyS p.ref with
    | some r => (env r).fromJson j
    | Option.none => getConstructorSem p.type j

/-- The decode expression including the `dict_['name']` access: a missing
key raises `KeyError` (the spec's `MissingField`). -/
def propDecodeExpr (env : Env) (p : CdpProperty) (d : List (String × Val)) :
    Except PyErr Val :=
  match findKey p.name d with
  | Option.none => .error (.keyError p.name)
  | some j => decodeVal env p j

/-- Full decode of one property from an input mapping, as emitted by
`CdpProperty.generate_from_json`: for an optional property the expression
is guarded by `if dict_.get('name', None) is not None else None`, so a
missing key or a null value decodes to `None`. -/
def propDecode (env : Env) (p : CdpProperty) (d : List (String × Val)) :
    Except PyErr Val :=
  if p.optional then
    match findKey p.name d with
    | Option.none => .ok .none
    | some .none => .ok .none
    | some _ => propDecodeExpr env p d
  else propDecodeExpr env p d

/-- The mapping entries contributed by one property at encode time, as
emitted by `CdpProperty.generate_to_json`: an optional property whose value
is `None` is skipped entirely (`if self.x is not None:`), otherwise one
entry `dict_['name'] = <expr>` is produced. -/
def propEntry (env : Env) (p : CdpProperty) (v : Val) :
    Except PyErr (List (String × Val)) :=
  if p.optional then
    if v.isNone then .ok []
    else
      match encodeExpr env p v with
      | .ok e => .ok [(p.name, e)]
      | .error err => .error err
  else
    match encodeExpr env p v with
    | .ok e => .ok [(p.name, e)]
    | .error err => .error err

/-- Attribute access on a generated dataclass instance modelled as an
association list from Python field names to values. -/
def getattrE (inst : List (String × Val)) (k : String) : Except PyErr Val :=
  match findKey k inst with
  | some v => .ok v
  | Option.none => .error .attributeError

/-- Encode a list of properties into a mapping, reading each stored value
with `get` (attribute access for records, local variables for command
parameters); statements execute in order and the first exception aborts. -/
def encodeFields (env : Env) (get : String → Except PyErr Val) :
    List CdpProperty → Except PyErr (List (String × Val))
  | [] => .ok []
  | p :: rest =>
    match get p.pyName with
    | .error e => .error e
    | .ok v =>
      match propEntry env p v with
      | .error e => .error e
      | .ok ent =>
        match encodeFields env get rest with
        | .error e => .error e
        | .ok d => .ok (ent ++ d)

/-- Decode a list of properties from one input mapping, producing the
constructor arguments `py_name = <decode expr>` in order. -/
def decodeFields (env : Env) : List CdpProperty → List (String × Val) →
    Except PyErr (List (String × Val))
  | [], _ => .ok []
  | p :: rest, d =>
    match propDecode env p d with
    | .error e => .error e
    | .ok v =>
      match decodeFields env rest d with
      | .error e => .error e
      | .ok vs => .ok ((p.pyName, v) :: vs)

/-! ## Type annotations

`CdpProperty.py_annotation` resolves references with `ref_to_python_domain`
(domain aware), while `CdpParameter.generate_code` and
`CdpReturn.py_annotation` resolve with `ref_to_python` (not domain aware). -/

/-- `CdpPrimitiveType.get_annotation`: the Python type name for a CDP
primitive type; an unknown name is the `KeyError` of `cls[cdp_type]`. -/
def getAnnot (cdpType : Option String) : Option String :=
  match cdpType with
  | some "any" => some "typing.Any"
  | some "boolean" => some "bool"
  | some "integer" => some "int"
  | some "number" => some "float"
  | some "object" => some "dict"
  | some "string" => some "str"
  | _ => Option.none

/-- `CdpProperty.py_annotation`: the annotation used for record and event
field declarations; references resolve via `ref_to_python_domain`. -/
def CdpProperty.pyAnnot (p : CdpProperty) : Option String :=
  (match p.items with
  | some it =>
    match truthyS it.ref with
    | some r => (ref_to_python_domain r p.domain).map
        (fun x => "typing.List[" ++ x ++ "]")
    | Option.none => (getAnnot it.type).map (fun x => "typing.List[" ++ x ++ "]")
  | Option.none =>
    match truthyS p.ref with
    | some r => ref_to_python_domain r p.domain
    | Option.none => getAnnot p.type).map
    (fun ann => if p.optional then "typing.Optional[" ++ ann ++ "]" else ann)

/-- `CdpReturn.py_annotation`: the annotation used for command return
values; references resolve via `ref_to_python` (the current domain is never
consulted). -/
def CdpProperty.retAnnot (p : CdpProperty) : Option String :=
  (match p.items with
  | some it =>
    match truthyS it.ref with
    | some r => (ref_to_python r).map (fun x => "typing.List[" ++ x ++ "]")
    | Option.none => (getAnnot it.type).map (fun x => "typing.List[" ++ x ++ "]")
  | Option.none =>
    match truthyS p.ref with
    | some r => ref_to_python r
    | Option.none => getAnnot p.type).map
    (fun ann => if p.optional then "typing.Optional[" ++ ann ++ "]" else ann)

/-! ## Stable sorting by optionality

`CdpType.generate_class_code` runs `props.sort(key=attrgetter('optional'))`
and `CdpCommand.generate_code` runs
`sorted(self.parameters, key=lambda param: 1 if param.optional else 0)`.
Python's `list.sort`/`sorted` are stable comparison sorts; they are
modelled by a stable insertion sort on the integer key. -/

/-- Stable insertion into a key-sorted list: the new element goes before
the first element with a strictly greater key, hence after all earlier
elements with an equal key. -/
def pyInsertByKey (key : α → Nat) (a : α) : List α → List α
  | [] => [a]
  | b :: bs => if key a ≤ key b then a :: b :: bs else b :: pyInsertByKey key a bs

/-- Python's stable sort by an integer key. -/
def pySortByKey (key : α → Nat) : List α → List α
  | [] => []
  | x :: xs => pyInsertByKey key x (pySortByKey key xs)

/-- The sort key used for properties and parameters:
`1 if optional else 0` (booleans sort identically as `False < True`). -/
def optKey (p : CdpProperty) : Nat := if p.optional then 1 else 0

/-- The field declaration order of a generated record
(`CdpType.generate_class_code`). -/
def CdpType.sortedProps (t : CdpType) : List CdpProperty :=
  pySortByKey optKey t.properties

/-- The parameter order of a generated command signature
(`CdpCommand.generate_code`). -/
def CdpCommand.sortedParams (c : CdpCommand) : List CdpProperty :=
  pySortByKey optKey c.parameters

/-! ## Record codec semantics (`CdpType.generate_class_code`) -/

/-- Semantics of the generated `to_json` of a record type: encode the
fields in declaration (sorted) order into one mapping, reading stored
values by attribute access. -/
def CdpType.recordToJson (env : Env) (t : CdpType)
    (inst : List (String × Val)) : Except PyErr (List (String × Val)) :=
  encodeFields env (getattrE inst) t.sortedProps

/-- Semantics of the generated `from_json` of a record type: decode every
field from the input mapping and build the instance. -/
def CdpType.recordFromJson (env : Env) (t : CdpType)
    (d : List (String × Val)) : Except PyErr (List (String × Val)) :=
  decodeFields env t.sortedProps d

/-- The canonical instance of a record with declaration-ordered properties
`ps` and field values `vals`. -/
def mkInst (ps : List CdpProperty) (vals : List Val) : List (String × Val) :=
  List.zip (ps.map CdpProperty.pyName) vals

/-! ## Enum emission (`CdpType.generate_enum_code`) -/

/-- `str.upper()` (character-wise uppercasing). -/
def pyToUpper (s : String) : String := String.mk (s.data.map Char.toUpper)

/-- The class members emitted for an enum type: for each declared wire
value, a constant named by upper-snake-casing it, assigned the wire value.
No collision check is performed. -/
def CdpType.enumMembers (t : CdpType) : List (String × String) :=
  (t.enum.getD []).map (fun v => (pyToUpper (snake_case v), v))

/-! ## Command semantics (`CdpCommand.generate_code`) -/

/-- The result a resumed command unit of work completes with. -/
inductive CmdResult where
  | unit
  | single (v : Val)
  | tuple (vs : List Val)

/-- The request descriptor built by the generated command body: the params
mapping is built first (parameters encoded in declaration order, local
variables read by Python name), then
`cmd_dict = mapping with 'method': '<domain>.<name>'` plus a `'params'`
entry exactly when the command declares parameters. -/
def CdpCommand.cmdDict (env : Env) (c : CdpCommand) (args : String → Val) :
    Except PyErr (List (String × Val)) :=
  match encodeFields env (fun n => .ok (args n)) c.parameters with
  | .error e => .error e
  | .ok params =>
    .ok ([("method", Val.str (c.domain ++ "." ++ c.name))] ++
      (if c.parameters.isEmpty then [] else [("params", Val.dict params)]))

/-- Decode all returns in declaration order (the tuple case of the
generated epilogue). -/
def decodeReturns (env : Env) (rs : List CdpProperty)
    (resp : List (String × Val)) : Except PyErr (List Val) :=
  mapExcept (fun r => propDecode env r resp) rs

/-- Semantics of the generated epilogue after `json = yield cmd_dict`:
zero returns complete with no value, one return completes with its decoded
value, several returns complete with the tuple of decoded values in
declaration order. -/
def CdpCommand.resumeSem (env : Env) (c : CdpCommand)
    (resp : List (String × Val)) : Except PyErr CmdResult :=
  match c.returns with
  | [] => .ok .unit
  | [r] =>
    match propDecode env r resp with
    | .ok v => .ok (.single v)
    | .error e => .error e
  | r1 :: r2 :: rest =>
    match decodeReturns env (r1 :: r2 :: rest) resp with
    | .ok vs => .ok (.tuple vs)
    | .error e => .error e

/-! ## Reference collection and imports (`get_refs`, `generate_imports`) -/

/-- The ref contributed by one property:
`if prop.items and prop.items.ref: add items.ref elif prop.ref: add ref`. -/
def CdpProperty.refContrib (p : CdpProperty) : Finset String :=
  match p.items.bind (fun it => truthyS it.ref) with
  | some r => {r}
  | Option.none =>
    match truthyS p.ref with
    | some r => {r}
    | Option.none => ∅

/-- Python truthiness of an optional list attribute. -/
def truthyL (l : Option (List String)) : Bool :=
  match l with
  | some (_ :: _) => true
  | _ => false

/-- `CdpType.get_refs`: enums have none; a class type collects its
properties' refs; a primitive type can only have an items ref. -/
def CdpType.getRefs (t : CdpType) : Finset String :=
  if truthyL t.enum then ∅
  else if !t.properties.isEmpty then
    t.properties.foldl (fun s p => s ∪ p.refContrib) ∅
  else
    match t.items.bind (fun it => truthyS it.ref) with
    | some r => {r}
    | Option.none => ∅

/-- `CdpCommand.get_refs`: refs of parameters and returns. -/
def CdpCommand.getRefs (c : CdpCommand) : Finset String :=
  (c.parameters ++ c.returns).foldl (fun s p => s ∪ p.refContrib) ∅

/-- `CdpEvent.get_refs`: refs of the payload parameters. -/
def CdpEvent.getRefs (e : CdpEvent) : Finset String :=
  e.parameters.foldl (fun s p => s ∪ p.refContrib) ∅

/-- The domain part of a dotted ref; `ref.split('.')` must yield exactly
two parts, otherwise the `ValueError` is caught and the ref is skipped. -/
def refDomain (r : String) : Option String :=
  match splitDotS r with
  | [dd, _] => some dd
  | _ => Option.none

/-- All refs appearing in a domain's types, commands and events. -/
def CdpDomain.collectRefs (d : CdpDomain) : Finset String :=
  (d.types.foldl (fun s t => s ∪ t.getRefs) ∅) ∪
  (d.commands.foldl (fun s c => s ∪ c.getRefs) ∅) ∪
  (d.events.foldl (fun s e => s ∪ e.getRefs) ∅)

/-- The import set computed by `CdpDomain.generate_imports`: for every
collected ref that splits as `<domain>.<type>` with a domain different
from the current one, the snake-cased domain; the declared `dependencies`
field is never read. -/
def CdpDomain.importSet (d : CdpDomain) : Finset String :=
  d.collectRefs.biUnion (fun r =>
    match refDomain r with
    | some dd => if dd ≠ d.domain then {snake_case dd} else ∅
    | Option.none => ∅)

/-- The emitted import lines' module names:
`sorted(dependencies)`. -/
def CdpDomain.importList (d : CdpDomain) : List String :=
  d.importSet.sort (· ≤ ·)

/-! ## The schema patcher (`fix_protocol_spec`) -/

/-- Apply `f` to the first element satisfying `sel` (the patch loops
`break` after the first match); no match is a no-op. -/
def patchFirst (sel : α → Bool) (f : α → Except PyErr α) :
    List α → Except PyErr (List α)
  | [] => .ok []
  | x :: xs =>
    if sel x then
      match f x with
      | .ok y => .ok (y :: xs)
      | .error e => .error e
    else
      match patchFirst sel f xs with
      | .ok ys => .ok (x :: ys)
      | .error e => .error e

/-- Apply `f` to the first element satisfying `sel`, total version (for the
`expires` patch, whose edit cannot raise). -/
def patchFirstTotal (sel : α → Bool) (f : α → α) : List α → List α
  | [] => []
  | x :: xs => if sel x then f x :: xs else x :: patchFirstTotal sel f xs

/-- Patch 1: `cmd.parameters[1].ref = 'BackendNodeId'` — an `IndexError` if
the command has fewer than two parameters. -/
def patchResolveNode (cmd : CdpCommand) : Except PyErr CdpCommand :=
  match cmd.parameters with
  | p0 :: p1 :: rest =>
    .ok { cmd with parameters := p0 :: { p1 with ref := some "BackendNodeId" } :: rest }
  | _ => .error .indexError

/-- Patch 2: `event.description = event.description.replace('`', '')` — an
`AttributeError` if the description is `None`. -/
def patchScreencast (ev : CdpEvent) : Except PyErr CdpEvent :=
  match ev.description with
  | some s => .ok { ev with description := some (s.replace "`" "") }
  | Option.none => .error .attributeError

/-- Patch 3: in every type named `Cookie`, the first property named
`expires` is re-marked optional. -/
def patchCookie (t : CdpType) : CdpType :=
  if t.id = "Cookie" then
    { t with properties := (patchFirstTotal (fun p => p.name = "expires")
        (fun p => { p with optional := true }) t.properties) }
  else t

/-- `fix_protocol_spec` on one domain. -/
def fixDomain (d : CdpDomain) : Except PyErr CdpDomain :=
  if d.domain = "DOM" then
    match patchFirst (fun c => c.name = "resolveNode") patchResolveNode d.commands with
    | .ok cs => .ok { d with commands := cs }
    | .error e => .error e
  else if d.domain = "Page" then
    match patchFirst (fun e => e.name = "screencastVisibilityChanged")
        patchScreencast d.events with
    | .ok es => .ok { d with events := es }
    | .error e => .error e
  else if d.domain = "Network" then
    .ok { d with types := d.types.map patchCookie }
  else .ok d

/-- `fix_protocol_spec`: apply the fixed patch list to every parsed
domain; the first exception aborts. -/
def fix_protocol_spec : List CdpDomain → Except PyErr (List CdpDomain)
  | [] => .ok []
  | d :: ds =>
    match fixDomain d with
    | .error e => .error e
    | .ok d' =>
      match fix_protocol_spec ds with
      | .error e => .error e
      | .ok ds' => .ok (d' :: ds')

/-! ## Legal values

A stored Python value is *legal* for a property when it has the type the
generated annotation declares.  Legality of instances of referenced types
is abstracted by a predicate `Lref` supplied together with the codec
environment. -/

/-- Legal values of a primitive CDP type: exactly the Python values of the
annotated Python type (`any` admits every value, including `None`). -/
inductive PrimLegal : Option String → Val → Prop where
  | any (v : Val) : PrimLegal (some "any") v
  | boolean (b : Bool) : PrimLegal (some "boolean") (.bool b)
  | integer (n : Int) : PrimLegal (some "integer") (.int n)
  | number (q : Rat) : PrimLegal (some "number") (.num q)
  | string (s : String) : PrimLegal (some "string") (.str s)
  | object (kvs : List (String × Val)) : PrimLegal (some "object") (.dict kvs)

/-- Legal element values of a repeated shape. -/
def ItemLegal (Lref : String → Val → Prop) (it : CdpItems) (x : Val) : Prop :=
  match truthyS it.ref with
  | some r => Lref r x
  | Option.none => PrimLegal it.type x

/-- Legal present values of a property's leaf shape. -/
def LeafLegal (Lref : String → Val → Prop) (p : CdpProperty) (v : Val) : Prop :=
  match p.items with
  | some it => ∃ xs, v = .list xs ∧ ∀ x ∈ xs, ItemLegal Lref it x
  | Option.none =>
    match truthyS p.ref with
    | some r => Lref r v
    | Option.none => PrimLegal p.type v

/-- Legal stored field values: an optional field stores `None` (absent) or
a legal non-`None` value; a required field stores a legal value. -/
def FieldLegal (Lref : String → Val → Prop) (p : CdpProperty) (v : Val) : Prop :=
  if p.optional = true then v = .none ∨ (v.isNone = false ∧ LeafLegal Lref p v)
  else LeafLegal Lref p v

/-- The codec environment is sound for `Lref`: on legal instances the
generated `to_json` never returns `None` and `from_json` inverts it. -/
def EnvOk (env : Env) (Lref : String → Val → Prop) : Prop :=
  ∀ r v, Lref r v →
    ((env r).toJson v).isNone = false ∧ (env r).fromJson ((env r).toJson v) = .ok v

/-- The leaf round-trip property: encoding succeeds, decoding the encoded
value restores the original, and a non-`None` value encodes to a
non-`None` wire value. -/
def LeafRT (env : Env) (p : CdpProperty) (v : Val) : Prop :=
  ∃ e, encodeExpr env p v = .ok e ∧ decodeVal env p e = .ok v ∧
    (v.isNone = false → e.isNone = false)

/-! ## Concrete fixtures used by witnesses and counterexamples -/

/-- A trivial codec environment (identity `to_json`, `ok` `from_json`). -/
def env0 : Env := fun _ => ⟨fun v => v, fun v => .ok v⟩

/-- The empty reference-legality predicate: no references occur. -/
def Lref0 : String → Val → Prop := fun _ _ => False

/-- Fixture builder: a property with the given name, primitive type, ref,
items, optionality and owning domain, all flags clear. -/
def mkProp (name : String) (ty : Option String) (ref : Option String)
    (items : Option CdpItems) (opt : Bool) (domain : String) : CdpProperty :=
  ⟨name, Option.none, ty, ref, Option.none, items, opt, false, false, domain⟩

/-- Required integer field `x` (Scenario A). -/
def propX : CdpProperty := mkProp "x" (some "integer") Option.none Option.none false "Foo"

/-- Optional string field `y` (Scenario A). -/
def propY : CdpProperty := mkProp "y" (some "string") Option.none Option.none true "Foo"

/-- Scenario A record type `Bar` with required `x` and optional `y`. -/
def tBar : CdpType :=
  ⟨"Bar", Option.none, "object", Option.none, Option.none, [propX, propY]⟩

/-- The Scenario A instance `Bar(x=3, y=None)`. -/
def barInst : List (String × Val) := mkInst tBar.sortedProps [Val.int 3, Val.none]

/-- Scenario B command `Foo.doThing` with required int `a`, optional
string `b`, and no returns. -/
def cmdDoThing : CdpCommand :=
  ⟨"doThing", Option.none, false, false,
    [mkProp "a" (some "integer") Option.none Option.none false "Foo",
     mkProp "b" (some "string") Option.none Option.none true "Foo"],
    [], "Foo"⟩

/-- The Scenario B argument binding `a=5, b=absent`. -/
def argsB : String → Val := fun n => if n = "a" then Val.int 5 else Val.none

/-- A command with a single required integer return `u`. -/
def cmdOneRet : CdpCommand :=
  ⟨"getU", Option.none, false, false, [],
    [mkProp "u" (some "integer") Option.none Option.none false "Foo"], "Foo"⟩

/-- A command with two returns `u` (int) and `v` (string). -/
def cmdTwoRet : CdpCommand :=
  ⟨"getUV", Option.none, false, false, [],
    [mkProp "u" (some "integer") Option.none Option.none false "Foo",
     mkProp "v" (some "string") Option.none Option.none false "Foo"], "Foo"⟩

/-- A command return carrying the self-qualified reference `DOM.Node`
inside domain `DOM`. -/
def retNodeSelf : CdpProperty :=
  mkProp "node" Option.none (some "DOM.Node") Option.none false "DOM"

/-- An enum type whose two distinct wire values `fooBar` and `foo_bar`
case-convert to the same constant name. -/
def enumCollide : CdpType :=
  ⟨"Collide", Option.none, "string", Option.none, some ["fooBar", "foo_bar"], []⟩

/-- An enum type with distinct constant names. -/
def enumOk : CdpType :=
  ⟨"Mood", Option.none, "string", Option.none, some ["happyFace", "sad"], []⟩

/-- A parsed `DOM` domain whose `resolveNode` command has no parameters:
a legal parse (`parameters` defaults to the empty list) on which patch 1
raises `IndexError`. -/
def domBadDOM : CdpDomain :=
  ⟨"DOM", Option.none, false, [],
    [], [⟨"resolveNode", Option.none, false, false, [], [], "DOM"⟩], []⟩

/-- A harmless domain none of whose elements is a patch target. -/
def domPlain : CdpDomain :=
  ⟨"Browser", Option.none, false, [], [],
    [⟨"close", Option.none, false, false, [], [], "Browser"⟩], []⟩

/-! # Supporting lemmas -/

theorem pyInsertByKey_zero (key : α → Nat) (a : α) (l : List α) (h : key a = 0) :
    pyInsertByKey key a l = a :: l := by
  cases l with
  | nil => rfl
  | cons b bs => simp [pyInsertByKey, h]

theorem pyInsertByKey_skip (key : α → Nat) (a : α) (A B : List α)
    (hA : ∀ x ∈ A, key x < key a) :
    pyInsertByKey key a (A ++ B) = A ++ pyInsertByKey key a B := by
  induction A with
  | nil => rfl
  | cons x xs ih =>
    have hx := hA x (by simp)
    simp only [List.cons_append, pyInsertByKey, List.append_eq,
      if_neg (Nat.not_le.mpr hx)]
    rw [ih (fun y hy => hA y (by simp [hy]))]

theorem pyInsertByKey_all_ge (key : α → Nat) (a : α) (B : List α)
    (hB : ∀ b ∈ B, key a ≤ key b) :
    pyInsertByKey key a B = a :: B := by
  cases B with
  | nil => rfl
  | cons b bs => simp [pyInsertByKey, hB b (by simp)]

theorem pySort_optKey_partition (l : List CdpProperty) :
    pySortByKey optKey l =
      l.filter (fun p => !p.optional) ++ l.filter (fun p => p.optional) := by
  induction l with
  | nil => rfl
  | cons p rest ih =>
    rw [pySortByKey, ih]
    by_cases hp : p.optional
    · rw [pyInsertByKey_skip]
      · rw [pyInsertByKey_all_ge]
        · simp [hp]
        · intro b hb
          have := List.of_mem_filter hb
          simp [optKey, hp, this]
      · intro x hx
        have := List.of_mem_filter hx
        simp only [Bool.not_eq_true'] at this
        simp [optKey, hp, this]
    · rw [pyInsertByKey_zero]
      · simp [hp]
      · simp [optKey, hp]

theorem patchFirst_no_match (sel : α → Bool) (f : α → Except PyErr α)
    (l : List α) (h : ∀ x ∈ l, sel x = false) : patchFirst sel f l = .ok l := by
  induction l with
  | nil => rfl
  | cons x xs ih =>
    simp only [patchFirst, h x (by simp)]
    rw [ih (fun y hy => h y (by simp [hy]))]
    simp

theorem map_patchCookie_id (ts : List CdpType) (h : ∀ t ∈ ts, t.id ≠ "Cookie") :
    ts.map patchCookie = ts := by
  induction ts with
  | nil => rfl
  | cons t rest ih =>
    have ht : patchCookie t = t := by
      unfold patchCookie
      rw [if_neg (h t (by simp))]
    rw [List.map_cons, ht, ih (fun y hy => h y (by simp [hy]))]

/-! # Claims -/

/-- C2.  For every generated record decode and every input mapping: a
required field whose key is absent fails with the `MissingField` typed
failure (Python `KeyError` carrying the field key), never a silent
default; an optional field whose key is absent decodes to the explicit
absent value `None`. -/
theorem cdp_decode_missing_field (env : Env) (p : CdpProperty)
    (d : List (String × Val)) :
    (p.optional = false → findKey p.name d = Option.none →
      propDecode env p d = .error (.keyError p.name)) ∧
    (p.optional = true → findKey p.name d = Option.none →
      propDecode env p d = .ok .none) := by
  constructor
  · intro h1 h2
    simp [propDecode, propDecodeExpr, h1, h2]
  · intro h1 h2
    simp [propDecode, h1, h2]

/-- Witness for C2 at the Scenario A fields and the empty mapping. -/
theorem cdp_decode_missing_field_witness :
    propDecode env0 propX [] = .error (.keyError "x") ∧
    propDecode env0 propY [] = .ok .none :=
  ⟨(cdp_decode_missing_field env0 propX []).1 rfl rfl,
   (cdp_decode_missing_field env0 propY []).2 rfl rfl⟩

/-- C10.  A null-valued entry for an optional property decodes exactly like
a missing entry: to the absent value, with no failure and no wrapping. -/
theorem cdp_decode_null_optional (env : Env) (p : CdpProperty)
    (d : List (String × Val)) (h1 : p.optional = true)
    (h2 : findKey p.name d = some Val.none) :
    propDecode env p d = .ok .none := by
  simp [propDecode, h1, h2]

/-- Witness for C10: optional `y` present with a null value. -/
theorem cdp_decode_null_optional_witness :
    propDecode env0 propY [("y", Val.none)] = .ok .none :=
  cdp_decode_null_optional env0 propY [("y", Val.none)] rfl rfl

/-- C3.  Generated record field declarations and command call-signature
parameters place every non-optional member before every optional member,
preserving the original relative order inside each group: the sorted list
is exactly the stable partition by optionality. -/
theorem cdp_declaration_order (t : CdpType) (c : CdpCommand) :
    t.sortedProps = t.properties.filter (fun p => !p.optional) ++
      t.properties.filter (fun p => p.optional) ∧
    c.sortedParams = c.parameters.filter (fun p => !p.optional) ++
      c.parameters.filter (fun p => p.optional) :=
  ⟨pySort_optKey_partition t.properties, pySort_optKey_partition c.parameters⟩

/-- C8, counterexample.  The enum emitter performs no collision check: the
two distinct wire values `fooBar` and `foo_bar` case-convert to the same
constant name `FOO_BAR`, and generation silently emits both colliding
constants instead of failing. -/
theorem cdp_enum_collision_cex :
    enumCollide.enum = some ["fooBar", "foo_bar"] ∧
    ("fooBar" : String) ≠ "foo_bar" ∧
    pyToUpper (snake_case "fooBar") = pyToUpper (snake_case "foo_bar") ∧
    ¬ (enumCollide.enumMembers.map Prod.fst).Nodup := by
  refine ⟨rfl, by decide, rfl, by decide⟩

/-- C8, amended.  Each declared wire value yields a constant named by its
upper-snake-case conversion, with no collision check; whenever the
conversions of the declared values are pairwise distinct, the emitted
constant names are distinct. -/
theorem cdp_enum_members (t : CdpType)
    (h : ((t.enum.getD []).map (fun v => pyToUpper (snake_case v))).Nodup) :
    (t.enumMembers.map Prod.fst).Nodup ∧
    ∀ v ∈ t.enum.getD [], (pyToUpper (snake_case v), v) ∈ t.enumMembers := by
  constructor
  · simpa [CdpType.enumMembers, List.map_map, Function.comp] using h
  · intro v hv
    exact List.mem_map.mpr ⟨v, hv, rfl⟩

/-- Witness for C8 (amended) at a collision-free enum. -/
theorem cdp_enum_members_witness :
    (enumOk.enumMembers.map Prod.fst).Nodup ∧
    ∀ v ∈ enumOk.enum.getD [], (pyToUpper (snake_case v), v) ∈ enumOk.enumMembers :=
  cdp_enum_members enumOk (by decide)

/-- C9, counterexample.  Patch application can raise: on a legally parsed
domain list in which `DOM.resolveNode` has no parameters (the `parameters`
key defaults to the empty list), patch 1's `cmd.parameters[1]` raises
`IndexError`, so `fix_protocol_spec` is not no-raise. -/
theorem cdp_patch_raises_cex :
    fix_protocol_spec [domBadDOM] = .error .indexError ∧
    ¬ ∃ out, fix_protocol_spec [domBadDOM] = .ok out := by
  constructor
  · rfl
  · rintro ⟨out, hout⟩
    rw [show fix_protocol_spec [domBadDOM] = .error .indexError from rfl] at hout
    simp at hout

/-- C9, amended.  When no patch target is present — no `resolveNode`
command in a `DOM` domain, no `screencastVisibilityChanged` event in a
`Page` domain, no `Cookie` type in a `Network` domain — every patch is a
silent no-op and the model is returned unchanged. -/
theorem cdp_patch_noop (domains : List CdpDomain)
    (h : ∀ d ∈ domains,
      (d.domain = "DOM" → ∀ c ∈ d.commands, c.name ≠ "resolveNode") ∧
      (d.domain = "Page" → ∀ e ∈ d.events, e.name ≠ "screencastVisibilityChanged") ∧
      (d.domain = "Network" → ∀ t ∈ d.types, t.id ≠ "Cookie")) :
    fix_protocol_spec domains = .ok domains := by
  induction domains with
  | nil => rfl
  | cons d ds ih =>
    have hd := h d (by simp)
    have hfix : fixDomain d = .ok d := by
      unfold fixDomain
      by_cases h1 : d.domain = "DOM"
      · rw [if_pos h1, patchFirst_no_match]
        · intro c hc
          simp [hd.1 h1 c hc]
      · rw [if_neg h1]
        by_cases h2 : d.domain = "Page"
        · rw [if_pos h2, patchFirst_no_match]
          · intro e he
            simp [hd.2.1 h2 e he]
        · rw [if_neg h2]
          by_cases h3 : d.domain = "Network"
          · rw [if_pos h3, map_patchCookie_id]
            exact hd.2.2 h3
          · rw [if_neg h3]
    rw [fix_protocol_spec, hfix, ih (fun d' hd' => h d' (by simp [hd']))]

/-- Witness for C9 (amended) at a concrete patch-target-free domain list. -/
theorem cdp_patch_noop_witness :
    fix_protocol_spec [domPlain] = .ok [domPlain] :=
  cdp_patch_noop [domPlain] (by decide)

theorem splitDotCh_dotfree (l : List Char) (h : '.' ∉ l) : splitDotCh l = [l] := by
  induction l with
  | nil => rfl
  | cons c cs ih =>
    have hc : ¬(c = '.') := fun e => h (by simp [e])
    simp only [splitDotCh, if_neg hc, ih (fun m => h (List.mem_cons_of_mem _ m))]

theorem splitDotCh_append (dl tl : List Char) (h : '.' ∉ dl) :
    splitDotCh (dl ++ '.' :: tl) = dl :: splitDotCh tl := by
  induction dl with
  | nil => simp [splitDotCh]
  | cons c cs ih =>
    have hc : ¬(c = '.') := fun e => h (by simp [e])
    simp only [List.cons_append, splitDotCh, if_neg hc, List.append_eq,
      ih (fun m => h (List.mem_cons_of_mem _ m))]

theorem startsWithCh_dot_iff (dl dl' tl : List Char) (h1 : '.' ∉ dl)
    (h2 : '.' ∉ dl') :
    (startsWithCh (dl ++ ['.']) (dl' ++ '.' :: tl) = true) ↔ dl = dl' := by
  induction dl generalizing dl' with
  | nil =>
    cases dl' with
    | nil => simp [startsWithCh]
    | cons c cs =>
      have hc : ¬('.' = c) := fun e => h2 (by simp [← e])
      simp [startsWithCh, hc]
  | cons a as ih =>
    cases dl' with
    | nil =>
      have ha : ¬(a = '.') := fun e => h1 (by simp [e])
      simp [startsWithCh, ha]
    | cons c cs =>
      have h1' : '.' ∉ as := fun m => h1 (List.mem_cons_of_mem _ m)
      have h2' : '.' ∉ cs := fun m => h2 (List.mem_cons_of_mem _ m)
      simp only [List.cons_append, startsWithCh, Bool.and_eq_true,
        decide_eq_true_eq, List.cons.injEq, List.append_eq]
      rw [ih cs h1' h2']

theorem strDotData (D T : String) : (D ++ "." ++ T).data = D.data ++ '.' :: T.data := by
  rw [String.data_append, String.data_append]
  show D.data ++ ['.'] ++ T.data = _
  simp

theorem dotted_ne_empty (D T : String) : D ++ "." ++ T ≠ "" := by
  intro e
  have h := strDotData D T
  rw [e] at h
  exact absurd h.symm (by simp)

theorem containsDot_eq_false (s : String) (h : '.' ∉ s.data) :
    containsDot s = false := by
  simp only [containsDot, List.contains]
  simpa using h

theorem containsDot_dotted (D T : String) : containsDot (D ++ "." ++ T) = true := by
  simp [containsDot, strDotData, List.contains]

theorem drop_after_dot (l1 l2 : List Char) :
    (l1 ++ '.' :: l2).drop (l1.length + 1) = l2 := by
  rw [show l1 ++ '.' :: l2 = (l1 ++ ['.']) ++ l2 by simp, List.drop_left']
  simp

theorem ref_to_python_dotted (D T : String) (hD : '.' ∉ D.data)
    (hT : '.' ∉ T.data) :
    ref_to_python (D ++ "." ++ T) = some (snake_case D ++ "." ++ T) := by
  rw [ref_to_python, if_pos (containsDot_dotted D T)]
  rw [splitDotS, strDotData, splitDotCh_append _ _ hD, splitDotCh_dotfree _ hT]
  rfl

theorem ref_to_python_dotfree (T : String) (hT : '.' ∉ T.data) :
    ref_to_python T = some T := by
  rw [ref_to_python]
  simp [containsDot_eq_false T hT]

theorem pyStartsWith_dotted (Dq D T : String) (hD : '.' ∉ D.data)
    (hDq : '.' ∉ Dq.data) :
    (pyStartsWith (Dq ++ "." ++ T) (D ++ ".") = true) ↔ D = Dq := by
  rw [pyStartsWith]
  have h1 : (D ++ ".").data = D.data ++ ['.'] := by
    rw [String.data_append]
  rw [h1, strDotData, startsWithCh_dot_iff _ _ _ hD hDq]
  exact ⟨fun e => String.ext e, fun e => by rw [e]⟩

theorem ref_to_python_domain_self (D T : String) (hD : '.' ∉ D.data)
    (hT : '.' ∉ T.data) :
    ref_to_python_domain (D ++ "." ++ T) D = some T := by
  rw [ref_to_python_domain, if_pos ((pyStartsWith_dotted D D T hD hD).mpr rfl)]
  have hdrop : pyDropChars (D ++ "." ++ T) (D.data.length + 1) = T := by
    rw [pyDropChars, strDotData, drop_after_dot]
  rw [hdrop]
  exact ref_to_python_dotfree T hT

/-- C7, counterexample.  A command return carrying the reference
`DOM.Node` inside domain `DOM` is annotated `dom.Node`, not the bare
`Node` the claim requires: `CdpReturn.py_annotation` resolves with
`ref_to_python`, which never drops a self-domain qualifier. -/
theorem cdp_ref_self_qualifier_cex :
    retNodeSelf.domain = "DOM" ∧
    retNodeSelf.ref = some "DOM.Node" ∧
    retNodeSelf.retAnnot = some "dom.Node" ∧
    ¬ retNodeSelf.retAnnot = some "Node" := by
  refine ⟨rfl, rfl, rfl, by decide⟩

/-- C7, amended.  Property resolution (`ref_to_python_domain`, used by
`CdpProperty.py_annotation` and all decode expressions) qualifies a
foreign-domain reference with the snake-cased domain and drops a
self-domain qualifier; but return (and parameter-signature) annotations
resolve with `ref_to_python`, which keeps and snake-cases the qualifier
even when it names the current domain. -/
theorem cdp_ref_resolution (D Dq T : String)
    (hD : '.' ∉ D.data) (hDq : '.' ∉ Dq.data) (hT : '.' ∉ T.data)
    (hne : Dq ≠ D) :
    ref_to_python_domain (D ++ "." ++ T) D = some T ∧
    ref_to_python_domain (Dq ++ "." ++ T) D = some (snake_case Dq ++ "." ++ T) ∧
    ref_to_python (D ++ "." ++ T) = some (snake_case D ++ "." ++ T) ∧
    (mkProp "r" Option.none (some (D ++ "." ++ T)) Option.none false D).pyAnnot =
      some T ∧
    (mkProp "r" Option.none (some (D ++ "." ++ T)) Option.none false D).retAnnot =
      some (snake_case D ++ "." ++ T) := by
  have hself := ref_to_python_domain_self D T hD hT
  have hforeign : ref_to_python_domain (Dq ++ "." ++ T) D =
      some (snake_case Dq ++ "." ++ T) := by
    rw [ref_to_python_domain, if_neg]
    · exact ref_to_python_dotted Dq T hDq hT
    · intro hstart
      exact hne ((pyStartsWith_dotted Dq D T hD hDq).mp hstart).symm
  have htr : truthyS (some (D ++ "." ++ T)) = some (D ++ "." ++ T) := by
    simp [truthyS, dotted_ne_empty D T]
  refine ⟨hself, hforeign, ref_to_python_dotted D T hD hT, ?_, ?_⟩
  · simp [CdpProperty.pyAnnot, mkProp, htr, hself]
  · simp [CdpProperty.retAnnot, mkProp, htr, ref_to_python_dotted D T hD hT]

/-- Witness for C7 (amended) at `D = "DOM"`, `Dq = "Page"`, `T = "Node"`. -/
theorem cdp_ref_resolution_witness :
    ref_to_python_domain ("DOM" ++ "." ++ "Node") "DOM" = some "Node" ∧
    ref_to_python_domain ("Page" ++ "." ++ "Node") "DOM" =
      some (snake_case "Page" ++ "." ++ "Node") ∧
    ref_to_python ("DOM" ++ "." ++ "Node") =
      some (snake_case "DOM" ++ "." ++ "Node") ∧
    (mkProp "r" Option.none (some ("DOM" ++ "." ++ "Node")) Option.none false
      "DOM").pyAnnot = some "Node" ∧
    (mkProp "r" Option.none (some ("DOM" ++ "." ++ "Node")) Option.none false
      "DOM").retAnnot = some (snake_case "DOM" ++ "." ++ "Node") :=
  cdp_ref_resolution "DOM" "Page" "Node" (by decide) (by decide) (by decide)
    (by decide)

theorem mapExcept_ok_spec (f : α → Except PyErr β) :
    ∀ (l : List α) (vs : List β), mapExcept f l = .ok vs →
      vs.length = l.length ∧
      ∀ i (h1 : i < l.length) (h2 : i < vs.length),
        f (l.get ⟨i, h1⟩) = .ok (vs.get ⟨i, h2⟩) := by
  intro l
  induction l with
  | nil =>
    intro vs h
    simp only [mapExcept, Except.ok.injEq] at h
    subst h
    exact ⟨rfl, fun i h1 => absurd h1 (by simp)⟩
  | cons x xs ih =>
    intro vs h
    cases hfx : f x with
    | error e => simp [mapExcept, hfx] at h
    | ok y =>
      cases hxs : mapExcept f xs with
      | error e => simp [mapExcept, hfx, hxs] at h
      | ok ys =>
        simp only [mapExcept, hfx, hxs, Except.ok.injEq] at h
        subst h
        obtain ⟨hlen, hget⟩ := ih ys hxs
        refine ⟨by simp [hlen], ?_⟩
        intro i h1 h2
        cases i with
        | zero => simpa using hfx
        | succ j =>
          simpa using hget j (by simpa using h1) (by simpa using h2)

/-- C5.  After being resumed with a response mapping, a generated command
completes with no value when it declares zero returns, with the single
decoded value when it declares exactly one, and with the ordered tuple of
the decoded values in declaration order when it declares more than one. -/
theorem cdp_command_returns (env : Env) (c : CdpCommand)
    (resp : List (String × Val)) :
    (c.returns = [] → c.resumeSem env resp = .ok .unit) ∧
    (∀ r v, c.returns = [r] → propDecode env r resp = .ok v →
      c.resumeSem env resp = .ok (.single v)) ∧
    (2 ≤ c.returns.length → ∀ vs, c.resumeSem env resp = .ok (.tuple vs) →
      vs.length = c.returns.length ∧
      ∀ i (h1 : i < c.returns.length) (h2 : i < vs.length),
        propDecode env (c.returns.get ⟨i, h1⟩) resp = .ok (vs.get ⟨i, h2⟩)) := by
  refine ⟨?_, ?_, ?_⟩
  · intro h
    simp [CdpCommand.resumeSem, h]
  · intro r v h hd
    simp [CdpCommand.resumeSem, h, hd]
  · intro hlen vs h
    unfold CdpCommand.resumeSem at h
    cases hret : c.returns with
    | nil => simp [hret] at hlen
    | cons r1 rtl =>
      cases hrtl : rtl with
      | nil =>
        rw [hrtl] at hret
        rw [hret] at hlen
        simp at hlen
      | cons r2 rest =>
        rw [hrtl] at hret
        rw [hret] at h
        simp only at h
        cases hdec : decodeReturns env (r1 :: r2 :: rest) resp with
        | error e => rw [hdec] at h; simp at h
        | ok ws =>
          rw [hdec] at h
          simp only [Except.ok.injEq, CmdResult.tuple.injEq] at h
          subst h
          exact mapExcept_ok_spec _ _ _ hdec

/-- Witness for C5 at commands with zero, one and two returns. -/
theorem cdp_command_returns_witness :
    cmdDoThing.resumeSem env0 [] = .ok .unit ∧
    cmdOneRet.resumeSem env0 [("u", Val.int 7)] = .ok (.single (Val.int 7)) ∧
    ([Val.int 1, Val.str "hi"].length = cmdTwoRet.returns.length ∧
      ∀ i (h1 : i < cmdTwoRet.returns.length)
        (h2 : i < [Val.int 1, Val.str "hi"].length),
        propDecode env0 (cmdTwoRet.returns.get ⟨i, h1⟩)
            [("u", Val.int 1), ("v", Val.str "hi")] =
          .ok ([Val.int 1, Val.str "hi"].get ⟨i, h2⟩)) :=
  ⟨(cdp_command_returns env0 cmdDoThing []).1 rfl,
   (cdp_command_returns env0 cmdOneRet [("u", Val.int 7)]).2.1 _ _ rfl rfl,
   (cdp_command_returns env0 cmdTwoRet [("u", Val.int 1), ("v", Val.str "hi")]).2.2
     (by decide) [Val.int 1, Val.str "hi"] rfl⟩

theorem isNone_iff (v : Val) : v.isNone = true ↔ v = .none := by
  cases v <;> simp [Val.isNone]

theorem findKey_cons_self (k : String) (v : Val) (l : List (String × Val)) :
    findKey k ((k, v) :: l) = some v := by
  simp [findKey]

theorem findKey_cons_ne (k k' : String) (v : Val) (l : List (String × Val))
    (h : k' ≠ k) : findKey k ((k', v) :: l) = findKey k l := by
  simp [findKey, h]

theorem findKey_append_none (k : String) (l1 l2 : List (String × Val))
    (h : findKey k l1 = Option.none) : findKey k (l1 ++ l2) = findKey k l2 := by
  induction l1 with
  | nil => rfl
  | cons kv rest ih =>
    obtain ⟨k', v⟩ := kv
    by_cases hk : k' = k
    · rw [hk] at h
      rw [findKey_cons_self] at h
      cases h
    · rw [List.cons_append, findKey_cons_ne _ _ _ _ hk]
      rw [findKey_cons_ne _ _ _ _ hk] at h
      exact ih h

theorem mapExcept_id_of (f : α → Except PyErr α) (l : List α)
    (h : ∀ x ∈ l, f x = .ok x) : mapExcept f l = .ok l := by
  induction l with
  | nil => rfl
  | cons x xs ih =>
    rw [mapExcept, h x (by simp), ih (fun y hy => h y (by simp [hy]))]

theorem mapExcept_map_of (f : β → Except PyErr α) (g : α → β) (l : List α)
    (h : ∀ x ∈ l, f (g x) = .ok x) : mapExcept f (l.map g) = .ok l := by
  induction l with
  | nil => rfl
  | cons x xs ih =>
    rw [List.map_cons, mapExcept, h x (by simp),
      ih (fun y hy => h y (by simp [hy]))]

theorem getConstructorSem_id (t : Option String) (v : Val) (h : PrimLegal t v) :
    getConstructorSem t v = .ok v := by
  cases h <;> simp [getConstructorSem, pyTruthy]

theorem leaf_rt_of_legal (env : Env) (Lref : String → Val → Prop)
    (henv : EnvOk env Lref) (p : CdpProperty) (v : Val)
    (h : LeafLegal Lref p v) : LeafRT env p v := by
  unfold LeafRT
  cases hit : p.items with
  | some it =>
    simp only [LeafLegal, hit] at h
    obtain ⟨xs, rfl, hxs⟩ := h
    cases htr : truthyS it.ref with
    | some r =>
      refine ⟨.list (xs.map (env r).toJson), ?_, ?_, fun _ => rfl⟩
      · simp [encodeExpr, hit, htr]
      · have hmap : mapExcept (env r).fromJson (xs.map (env r).toJson) = .ok xs := by
          refine mapExcept_map_of _ _ _ (fun x hx => ?_)
          have hx' := hxs x hx
          simp only [ItemLegal, htr] at hx'
          exact (henv r x hx').2
        simp [decodeVal, hit, htr, hmap]
    | none =>
      refine ⟨.list xs, ?_, ?_, fun _ => rfl⟩
      · simp [encodeExpr, hit, htr]
      · have hmap : mapExcept (getConstructorSem it.type) xs = .ok xs := by
          refine mapExcept_id_of _ _ (fun x hx => ?_)
          have hx' := hxs x hx
          simp only [ItemLegal, htr] at hx'
          exact getConstructorSem_id _ _ hx'
        simp [decodeVal, hit, htr, hmap]
  | none =>
    simp only [LeafLegal, hit] at h
    cases htr : truthyS p.ref with
    | some r =>
      rw [htr] at h
      obtain ⟨hnn, hrt⟩ := henv r v h
      exact ⟨(env r).toJson v, by simp [encodeExpr, hit, htr],
        by simp [decodeVal, hit, htr, hrt], fun _ => hnn⟩
    | none =>
      rw [htr] at h
      exact ⟨v, by simp [encodeExpr, hit, htr],
        by simp [decodeVal, hit, htr, getConstructorSem_id _ _ h], fun hv => hv⟩

theorem propDecode_eq_expr (env : Env) (p : CdpProperty)
    (d : List (String × Val)) (e : Val) (hf : findKey p.name d = some e)
    (hne : p.optional = true → e.isNone = false) :
    propDecode env p d = propDecodeExpr env p d := by
  unfold propDecode
  by_cases ho : p.optional = true
  · rw [if_pos ho, hf]
    have := hne ho
    cases e <;> simp_all [Val.isNone]
  · rw [if_neg ho]

theorem propDecodeExpr_prepend (env : Env) (p : CdpProperty)
    (l1 d : List (String × Val)) (h : findKey p.name l1 = Option.none) :
    propDecodeExpr env p (l1 ++ d) = propDecodeExpr env p d := by
  unfold propDecodeExpr
  rw [findKey_append_none _ _ _ h]

theorem propDecode_prepend (env : Env) (p : CdpProperty)
    (l1 d : List (String × Val)) (h : findKey p.name l1 = Option.none) :
    propDecode env p (l1 ++ d) = propDecode env p d := by
  unfold propDecode
  rw [findKey_append_none _ _ _ h, propDecodeExpr_prepend env p l1 d h]

theorem decodeFields_prepend (env : Env) (ps : List CdpProperty)
    (l1 d : List (String × Val))
    (h : ∀ q ∈ ps, findKey q.name l1 = Option.none) :
    decodeFields env ps (l1 ++ d) = decodeFields env ps d := by
  induction ps with
  | nil => rfl
  | cons q qs ih =>
    unfold decodeFields
    rw [propDecode_prepend env q l1 d (h q (by simp)),
      ih (fun x hx => h x (by simp [hx]))]

theorem encodeFields_rt (env : Env) (Lref : String → Val → Prop)
    (henv : EnvOk env Lref) :
    ∀ (ps : List CdpProperty) (vals : List Val) (get : String → Except PyErr Val),
      (ps.map (fun p => p.name)).Nodup →
      List.Forall₂ (fun p v => get p.pyName = .ok v) ps vals →
      List.Forall₂ (FieldLegal Lref) ps vals →
      ∃ d, encodeFields env get ps = .ok d ∧
        (∀ k, k ∉ ps.map (fun p => p.name) → findKey k d = Option.none) ∧
        (∀ i (h1 : i < ps.length) (h2 : i < vals.length),
          ((ps.get ⟨i, h1⟩).optional = true → (vals.get ⟨i, h2⟩).isNone = true →
            findKey (ps.get ⟨i, h1⟩).name d = Option.none) ∧
          (¬((ps.get ⟨i, h1⟩).optional = true ∧ (vals.get ⟨i, h2⟩).isNone = true) →
            ∃ e, encodeExpr env (ps.get ⟨i, h1⟩) (vals.get ⟨i, h2⟩) = .ok e ∧
              findKey (ps.get ⟨i, h1⟩).name d = some e)) ∧
        decodeFields env ps d = .ok (mkInst ps vals) := by
  intro ps
  induction ps with
  | nil =>
    intro vals get hn hget hleg
    cases hget
    exact ⟨[], rfl, fun k _ => rfl, fun i h1 => absurd h1 (by simp), rfl⟩
  | cons p ps' ih =>
    intro vals get hn hget hleg
    cases hget with
    | @cons _ v _ vals' hgh hgt =>
      cases hleg with
      | cons hlh hlt =>
        have hn1 : p.name ∉ ps'.map (fun p => p.name) := by
          simp only [List.map_cons, List.nodup_cons] at hn
          exact hn.1
        have hn2 : (ps'.map (fun p => p.name)).Nodup := by
          simp only [List.map_cons, List.nodup_cons] at hn
          exact hn.2
        obtain ⟨d', hench', hkeys', hidx', hdec'⟩ := ih vals' get hn2 hgt hlt
        by_cases habs : p.optional = true ∧ v.isNone = true
        · have hvn : v = .none := (isNone_iff v).mp habs.2
          have hent : propEntry env p v = .ok [] := by
            unfold propEntry
            rw [if_pos habs.1, if_pos habs.2]
          refine ⟨d', ?_, ?_, ?_, ?_⟩
          · simp only [encodeFields, hgh, hent, hench', List.nil_append]
          · intro k hk
            exact hkeys' k (fun m => hk (by simp [m]))
          · intro i h1 h2
            cases i with
            | zero =>
              constructor
              · intro _ _
                exact hkeys' p.name hn1
              · intro hc
                exact absurd habs hc
            | succ j =>
              exact hidx' j (by simpa using h1) (by simpa using h2)
          · have hpd : propDecode env p d' = .ok v := by
              unfold propDecode
              rw [if_pos habs.1, hkeys' p.name hn1, hvn]
            simp only [decodeFields, hpd, hdec']
            rfl
        · have hleaf : LeafLegal Lref p v ∧ (p.optional = true → v.isNone = false) := by
            unfold FieldLegal at hlh
            by_cases ho : p.optional = true
            · rw [if_pos ho] at hlh
              cases hlh with
              | inl hv => exact absurd ⟨ho, (isNone_iff v).mpr hv⟩ habs
              | inr hv => exact ⟨hv.2, fun _ => hv.1⟩
            · rw [if_neg ho] at hlh
              exact ⟨hlh, fun h => absurd h ho⟩
          obtain ⟨e, hee, hde, hnnimp⟩ := leaf_rt_of_legal env Lref henv p v hleaf.1
          have hent : propEntry env p v = .ok [(p.name, e)] := by
            unfold propEntry
            by_cases ho : p.optional = true
            · rw [if_pos ho, if_neg (by simp [hleaf.2 ho]), hee]
            · rw [if_neg ho, hee]
          refine ⟨(p.name, e) :: d', ?_, ?_, ?_, ?_⟩
          · simp only [encodeFields, hgh, hent, hench']
            rfl
          · intro k hk
            have hk1 : ¬(p.name = k) := fun e' => hk (by simp [← e'])
            rw [findKey_cons_ne _ _ _ _ hk1]
            exact hkeys' k (fun m => hk (by simp [m]))
          · intro i h1 h2
            cases i with
            | zero =>
              exact ⟨fun hopt hnn => absurd ⟨hopt, hnn⟩ habs,
                fun _ => ⟨e, hee, findKey_cons_self p.name e d'⟩⟩
            | succ j =>
              have hj1 : j < ps'.length := by simpa using h1
              have hj2 : j < vals'.length := by simpa using h2
              have hqname : ¬(p.name = (ps'.get ⟨j, hj1⟩).name) := by
                intro e'
                exact hn1 (by
                  rw [e']
                  exact List.mem_map.mpr ⟨ps'.get ⟨j, hj1⟩, List.get_mem _ _ _, rfl⟩)
              obtain ⟨ha, hb⟩ := hidx' j hj1 hj2
              constructor
              · intro ho hn'
                show findKey (ps'.get ⟨j, hj1⟩).name ((p.name, e) :: d') = Option.none
                rw [findKey_cons_ne _ _ _ _ hqname]
                exact ha ho hn'
              · intro hc
                obtain ⟨e', he1, he2⟩ := hb hc
                refine ⟨e', he1, ?_⟩
                show findKey (ps'.get ⟨j, hj1⟩).name ((p.name, e) :: d') = some e'
                rw [findKey_cons_ne _ _ _ _ hqname]
                exact he2
          · have hfself : findKey p.name ((p.name, e) :: d') = some e :=
              findKey_cons_self _ _ _
            have hpd : propDecode env p ((p.name, e) :: d') = .ok v := by
              rw [propDecode_eq_expr env p _ e hfself
                (fun ho => hnnimp (hleaf.2 ho))]
              unfold propDecodeExpr
              rw [hfself]
              exact hde
            have hrest : decodeFields env ps' ((p.name, e) :: d') =
                .ok (mkInst ps' vals') := by
              have heq : decodeFields env ps' ([(p.name, e)] ++ d') =
                  decodeFields env ps' d' := by
                refine decodeFields_prepend env ps' [(p.name, e)] d' (fun q hq => ?_)
                have : ¬(p.name = q.name) := by
                  intro e'
                  exact hn1 (by rw [e']; exact List.mem_map.mpr ⟨q, hq, rfl⟩)
                rw [findKey_cons_ne _ _ _ _ this]
                rfl
              rw [show (p.name, e) :: d' = [(p.name, e)] ++ d' from rfl, heq, hdec']
            simp only [decodeFields, hpd, hrest]
            rfl

theorem findKey_mkInst :
    ∀ (ps : List CdpProperty) (vals : List Val),
      (ps.map CdpProperty.pyName).Nodup →
      ∀ i (h1 : i < ps.length) (h2 : i < vals.length),
        findKey (ps.get ⟨i, h1⟩).pyName (mkInst ps vals) =
          some (vals.get ⟨i, h2⟩) := by
  intro ps
  induction ps with
  | nil =>
    intro vals hpy i h1
    exact absurd h1 (by simp)
  | cons p ps' ih =>
    intro vals hpy i h1 h2
    cases vals with
    | nil => exact absurd h2 (by simp)
    | cons v vals' =>
      simp only [List.map_cons, List.nodup_cons] at hpy
      cases i with
      | zero =>
        show findKey p.pyName ((p.pyName, v) :: mkInst ps' vals') = some v
        exact findKey_cons_self _ _ _
      | succ j =>
        have hj1 : j < ps'.length := by simpa using h1
        have hj2 : j < vals'.length := by simpa using h2
        have hne : ¬(p.pyName = (ps'.get ⟨j, hj1⟩).pyName) := by
          intro e'
          exact hpy.1 (by
            rw [e']
            exact List.mem_map.mpr ⟨_, List.get_mem _ _ _, rfl⟩)
        show findKey (ps'.get ⟨j, hj1⟩).pyName ((p.pyName, v) :: mkInst ps' vals') =
          some (vals'.get ⟨j, hj2⟩)
        rw [findKey_cons_ne _ _ _ _ hne]
        exact ih vals' hpy.2 j hj1 hj2

theorem forall₂_map_self (R : CdpProperty → Val → Prop) (f : CdpProperty → Val)
    (l : List CdpProperty) (h : ∀ x ∈ l, R x (f x)) :
    List.Forall₂ R l (l.map f) := by
  induction l with
  | nil => exact List.Forall₂.nil
  | cons x xs ih =>
    exact List.Forall₂.cons (h x (by simp)) (ih (fun y hy => h y (by simp [hy])))

/-- C1.  Round trip: for every property list (a record's fields, or a
command's parameter/return set — `CdpParameter` and `CdpReturn` reuse the
same per-property codec) and every legal field assignment, the generated
decode inverts the generated encode; an absent optional field contributes
no entry to the encoded mapping.  The second conjunct instantiates this to
the generated record `to_json`/`from_json` pair. -/
theorem cdp_round_trip (env : Env) (Lref : String → Val → Prop)
    (henv : EnvOk env Lref) :
    (∀ (ps : List CdpProperty) (vals : List Val),
      (ps.map (fun p => p.name)).Nodup →
      (ps.map CdpProperty.pyName).Nodup →
      List.Forall₂ (FieldLegal Lref) ps vals →
      ∃ d, encodeFields env (getattrE (mkInst ps vals)) ps = .ok d ∧
        decodeFields env ps d = .ok (mkInst ps vals) ∧
        ∀ i (h1 : i < ps.length) (h2 : i < vals.length),
          (ps.get ⟨i, h1⟩).optional = true → (vals.get ⟨i, h2⟩).isNone = true →
            findKey (ps.get ⟨i, h1⟩).name d = Option.none) ∧
    (∀ (t : CdpType) (vals : List Val),
      (t.sortedProps.map (fun p => p.name)).Nodup →
      (t.sortedProps.map CdpProperty.pyName).Nodup →
      List.Forall₂ (FieldLegal Lref) t.sortedProps vals →
      ∃ d, t.recordToJson env (mkInst t.sortedProps vals) = .ok d ∧
        t.recordFromJson env d = .ok (mkInst t.sortedProps vals)) := by
  have main : ∀ (ps : List CdpProperty) (vals : List Val),
      (ps.map (fun p => p.name)).Nodup →
      (ps.map CdpProperty.pyName).Nodup →
      List.Forall₂ (FieldLegal Lref) ps vals →
      ∃ d, encodeFields env (getattrE (mkInst ps vals)) ps = .ok d ∧
        decodeFields env ps d = .ok (mkInst ps vals) ∧
        ∀ i (h1 : i < ps.length) (h2 : i < vals.length),
          (ps.get ⟨i, h1⟩).optional = true → (vals.get ⟨i, h2⟩).isNone = true →
            findKey (ps.get ⟨i, h1⟩).name d = Option.none := by
    intro ps vals hn hpy hleg
    have hlen := List.Forall₂.length_eq hleg
    have hget : List.Forall₂
        (fun p v => getattrE (mkInst ps vals) p.pyName = .ok v) ps vals := by
      rw [List.forall₂_iff_get]
      refine ⟨hlen, fun i h1 h2 => ?_⟩
      unfold getattrE
      rw [findKey_mkInst ps vals hpy i h1 h2]
    obtain ⟨d, h1, h2, h3, h4⟩ := encodeFields_rt env Lref henv ps vals _ hn hget hleg
    exact ⟨d, h1, h4, fun i hh1 hh2 ho hn' => (h3 i hh1 hh2).1 ho hn'⟩
  refine ⟨main, fun t vals hn hpy hleg => ?_⟩
  obtain ⟨d, h1, h2, _⟩ := main t.sortedProps vals hn hpy hleg
  exact ⟨d, h1, h2⟩

/-- Witness for C1: Scenario A.  Encoding `Bar(x=3, y=None)` yields exactly
the mapping with the single entry `x = 3`; decoding it restores the
instance with `y` absent; and the general theorem applies. -/
theorem cdp_round_trip_witness :
    tBar.recordToJson env0 barInst = .ok [("x", Val.int 3)] ∧
    tBar.recordFromJson env0 [("x", Val.int 3)] = .ok barInst ∧
    ∃ d, tBar.recordToJson env0 barInst = .ok d ∧
      tBar.recordFromJson env0 d = .ok barInst := by
  refine ⟨rfl, rfl, ?_⟩
  exact (cdp_round_trip env0 Lref0 (fun r v h => h.elim)).2 tBar
    [Val.int 3, Val.none] (by decide) (by decide)
    (List.Forall₂.cons (PrimLegal.integer 3)
      (List.Forall₂.cons (Or.inl rfl) List.Forall₂.nil))

/-- C4.  The generated command body builds a request descriptor whose
method identifier is exactly `<domain>.<name>` and whose parameter mapping
has one entry per parameter with a present value, omitting absent optional
parameters. -/
theorem cdp_request_descriptor (env : Env) (Lref : String → Val → Prop)
    (henv : EnvOk env Lref) (c : CdpCommand) (args : String → Val)
    (hnames : (c.parameters.map (fun p => p.name)).Nodup)
    (hne : c.parameters ≠ [])
    (hleg : ∀ p ∈ c.parameters, FieldLegal Lref p (args p.pyName)) :
    ∃ pm, c.cmdDict env args =
        .ok [("method", Val.str (c.domain ++ "." ++ c.name)),
             ("params", Val.dict pm)] ∧
      (∀ p ∈ c.parameters, p.optional = true → (args p.pyName).isNone = true →
        findKey p.name pm = Option.none) ∧
      (∀ p ∈ c.parameters,
        ¬(p.optional = true ∧ (args p.pyName).isNone = true) →
        ∃ e, encodeExpr env p (args p.pyName) = .ok e ∧
          findKey p.name pm = some e) := by
  have hget : List.Forall₂
      (fun p v => (Except.ok (args p.pyName) : Except PyErr Val) = .ok v)
      c.parameters (c.parameters.map (fun p => args p.pyName)) :=
    forall₂_map_self _ _ _ (fun p _ => rfl)
  have hlegs : List.Forall₂ (FieldLegal Lref) c.parameters
      (c.parameters.map (fun p => args p.pyName)) :=
    forall₂_map_self _ _ _ hleg
  obtain ⟨pm, h1, _, h3, _⟩ :=
    encodeFields_rt env Lref henv c.parameters
      (c.parameters.map (fun p => args p.pyName))
      (fun n => .ok (args n)) hnames hget hlegs
  have hemp : c.parameters.isEmpty = false := by
    cases hps : c.parameters with
    | nil => exact absurd hps hne
    | cons a l => rfl
  refine ⟨pm, ?_, ?_, ?_⟩
  · unfold CdpCommand.cmdDict
    rw [h1, hemp]
    rfl
  · intro p hp hopt hnone
    obtain ⟨⟨i, hi⟩, hgi⟩ := List.mem_iff_get.mp hp
    have h2i : i < (c.parameters.map (fun p => args p.pyName)).length := by
      simpa using hi
    have hv : (c.parameters.map (fun p => args p.pyName)).get ⟨i, h2i⟩ =
        args p.pyName := by
      rw [List.get_map, hgi]
    have hfact := (h3 i hi h2i).1
    rw [hgi, hv] at hfact
    exact hfact hopt hnone
  · intro p hp hc
    obtain ⟨⟨i, hi⟩, hgi⟩ := List.mem_iff_get.mp hp
    have h2i : i < (c.parameters.map (fun p => args p.pyName)).length := by
      simpa using hi
    have hv : (c.parameters.map (fun p => args p.pyName)).get ⟨i, h2i⟩ =
        args p.pyName := by
      rw [List.get_map, hgi]
    have hfact := (h3 i hi h2i).2
    rw [hgi, hv] at hfact
    exact hfact hc

/-- Witness for C4: Scenario B.  `Foo.doThing` with `a=5, b=absent`
encodes to exactly the descriptor with method `Foo.doThing` and parameter
mapping containing the single entry `a = 5`. -/
theorem cdp_request_descriptor_witness :
    cmdDoThing.cmdDict env0 argsB =
      .ok [("method", Val.str "Foo.doThing"),
           ("params", Val.dict [("a", Val.int 5)])] ∧
    ∃ pm, cmdDoThing.cmdDict env0 argsB =
        .ok [("method", Val.str (cmdDoThing.domain ++ "." ++ cmdDoThing.name)),
             ("params", Val.dict pm)] ∧
      (∀ p ∈ cmdDoThing.parameters, p.optional = true →
        (argsB p.pyName).isNone = true → findKey p.name pm = Option.none) ∧
      (∀ p ∈ cmdDoThing.parameters,
        ¬(p.optional = true ∧ (argsB p.pyName).isNone = true) →
        ∃ e, encodeExpr env0 p (argsB p.pyName) = .ok e ∧
          findKey p.name pm = some e) := by
  refine ⟨rfl, ?_⟩
  refine cdp_request_descriptor env0 Lref0 (fun r v h => h.elim) cmdDoThing argsB
    (by decide) (by simp [cmdDoThing]) ?_
  intro p hp
  have hp' : p = mkProp "a" (some "integer") Option.none Option.none false "Foo" ∨
      p = mkProp "b" (some "string") Option.none Option.none true "Foo" := by
    simpa [cmdDoThing] using hp
  rcases hp' with rfl | rfl
  · exact PrimLegal.integer 5
  · exact Or.inl rfl

theorem mem_foldl_union (f : α → Finset String) (l : List α)
    (init : Finset String) (x : String) :
    x ∈ l.foldl (fun s a => s ∪ f a) init ↔ x ∈ init ∨ ∃ a ∈ l, x ∈ f a := by
  induction l generalizing init with
  | nil => simp
  | cons a as ih =>
    rw [List.foldl_cons, ih]
    simp [Finset.mem_union, or_assoc]

theorem mem_collectRefs (d : CdpDomain) (r : String) :
    r ∈ d.collectRefs ↔ (∃ t ∈ d.types, r ∈ t.getRefs) ∨
      (∃ c ∈ d.commands, r ∈ c.getRefs) ∨ (∃ e ∈ d.events, r ∈ e.getRefs) := by
  rw [CdpDomain.collectRefs]
  simp [Finset.mem_union, mem_foldl_union]

theorem count_nodup_strings (l : List String) (a : String) (h : l.Nodup) :
    l.count a = if a ∈ l then 1 else 0 := by
  by_cases hm : a ∈ l
  · rw [if_pos hm, List.count_eq_one_of_mem h hm]
  · rw [if_neg hm, List.count_eq_zero_of_not_mem hm]

/-- C6.  The computed import list of a domain contains a module name `s`
exactly when some reference or repeated-`items` reference in the domain's
types, commands or events is qualified with a different domain whose
snake-cased name is `s`; every entry occurs exactly once; and the IDL's
declared `dependencies` field is never consulted. -/
theorem cdp_imports (d : CdpDomain) (s : String) :
    (s ∈ d.importList ↔
      ∃ r, ((∃ t ∈ d.types, r ∈ t.getRefs) ∨ (∃ c ∈ d.commands, r ∈ c.getRefs) ∨
          (∃ e ∈ d.events, r ∈ e.getRefs)) ∧
        ∃ dd, refDomain r = some dd ∧ dd ≠ d.domain ∧ snake_case dd = s) ∧
    d.importList.count s = (if s ∈ d.importSet then 1 else 0) ∧
    (∀ deps, CdpDomain.importList { d with dependencies := deps } =
      d.importList) := by
  have htarget : ∀ r, (s ∈ (match refDomain r with
      | some dd => if dd ≠ d.domain then ({snake_case dd} : Finset String) else ∅
      | Option.none => (∅ : Finset String))) ↔
      ∃ dd, refDomain r = some dd ∧ dd ≠ d.domain ∧ snake_case dd = s := by
    intro r
    cases hrd : refDomain r with
    | none => simp [hrd]
    | some dd =>
      by_cases hne : dd ≠ d.domain
      · simp [hrd, hne, eq_comm]
      · simp [hrd, hne]
  refine ⟨?_, ?_, fun deps => rfl⟩
  · rw [CdpDomain.importList, Finset.mem_sort, CdpDomain.importSet,
      Finset.mem_biUnion]
    constructor
    · rintro ⟨r, hr, hs⟩
      exact ⟨r, (mem_collectRefs d r).mp hr, (htarget r).mp hs⟩
    · rintro ⟨r, hocc, hdd⟩
      exact ⟨r, (mem_collectRefs d r).mpr hocc, (htarget r).mpr hdd⟩
  · rw [show d.importList = Finset.sort (· ≤ ·) d.importSet from rfl,
      count_nodup_strings _ _ (Finset.sort_nodup (· ≤ ·) d.importSet)]
    simp [Finset.mem_sort]
